import Mathlib

/-!
Verification of the potential-field extrapolation core of synthesizAR
(src/synthesizAR/extrapolate/extrapolators.py).

Arrays are embedded as total functions from natural indices to real values;
the numpy shapes are tracked separately as natural-number tuples.  The numba
kernels (calculate_phi, greens_function) and the finite-difference method
PotentialField.calculate_field are transcribed definition by definition below.
-/

/-- A 3-dimensional real array, embedded as a total function on indices. -/
abbrev Arr3 := ℕ → ℕ → ℕ → ℝ

/-- Virtual source depth computed in PotentialField.calculate_phi (line 140):
z_depth = -delta.z / np.sqrt(2 * np.pi). -/
noncomputable def z_depth (dz : ℝ) : ℝ := -dz / Real.sqrt (2 * Real.pi)

/-- Intermediate R_mag of greens_function (lines 228-231):
Rx = x - x_grid, Ry = y - y_grid, Rz = z - z_depth,
R_mag = np.sqrt(Rx**2 + Ry**2 + Rz**2). -/
noncomputable def R_mag (x y z x_grid y_grid zd : ℝ) : ℝ :=
  Real.sqrt ((x - x_grid) ^ 2 + (y - y_grid) ^ 2 + (z - zd) ^ 2)

/-- Intermediate l_dot_R of greens_function (line 232):
l_dot_R = l_hat[0] * Rx + l_hat[1] * Ry + l_hat[2] * Rz. -/
noncomputable def l_dot_R (x y z x_grid y_grid zd : ℝ) (l_hat : Fin 3 → ℝ) : ℝ :=
  l_hat 0 * (x - x_grid) + l_hat 1 * (y - y_grid) + l_hat 2 * (z - zd)

/-- Intermediate mu_dot_R of greens_function (line 233):
mu_dot_R = Rz - l_dot_R * l_hat[2]. -/
noncomputable def mu_dot_R (x y z x_grid y_grid zd : ℝ) (l_hat : Fin 3 → ℝ) : ℝ :=
  (z - zd) - l_dot_R x y z x_grid y_grid zd l_hat * l_hat 2

/-- The oblique Schmidt Green function kernel, transcribed from greens_function
(lines 226-236): term1 = l_hat[2] / R_mag,
term2 = mu_dot_R / (R_mag * (R_mag + l_dot_R)),
return 1. / (2. * np.pi) * (term1 + term2). -/
noncomputable def greens_function (x y z x_grid y_grid zd : ℝ) (l_hat : Fin 3 → ℝ) : ℝ :=
  1 / (2 * Real.pi) *
    (l_hat 2 / R_mag x y z x_grid y_grid zd +
      mu_dot_R x y z x_grid y_grid zd l_hat /
        (R_mag x y z x_grid y_grid zd *
          (R_mag x y z x_grid y_grid zd + l_dot_R x y z x_grid y_grid zd l_hat)))

/-- Modelled from the spec (section 4.2): Green = (1/2pi) (l_z/R_mag +
(mu.R)/(R_mag (R_mag + l.R))) with R = (x-x', y-y', z-z0), R_mag = |R| the
Euclidean norm, l.R the dot product, and mu.R = R_z - (l.R) l_z.  Written
independently of the source transcription, with the vector operations spelled
out as sums over Fin 3, to compare the two by theorem. -/
noncomputable def greens_spec (x y z xp yp z0 : ℝ) (l : Fin 3 → ℝ) : ℝ :=
  let R : Fin 3 → ℝ := ![x - xp, y - yp, z - z0]
  let Rmag : ℝ := Real.sqrt (∑ i, R i ^ 2)
  let ldR : ℝ := ∑ i, l i * R i
  let mdR : ℝ := R 2 - ldR * l 2
  1 / (2 * Real.pi) * (l 2 / Rmag + mdR / (Rmag * (Rmag + ldR)))

/-- Claim C2: for all real arguments, the Green function kernel returns
(1/(2 pi)) (l_z/R_mag + mu_dot_R/(R_mag (R_mag + l_dot_R))) with
R = (x-x', y-y', z-z0), R_mag = |R|, l_dot_R = l . R and
mu_dot_R = R_z - l_dot_R l_z: the source kernel coincides with the
spec formula at every input. -/
theorem greens_function_formula (x y z xp yp z0 : ℝ) (l : Fin 3 → ℝ) :
    greens_function x y z xp yp z0 l = greens_spec x y z xp yp z0 l := by
  simp only [greens_function, greens_spec, R_mag, l_dot_R, mu_dot_R,
    Fin.sum_univ_three, Matrix.cons_val_zero, Matrix.cons_val_one, Matrix.head_cons,
    Matrix.cons_val_two, Matrix.tail_cons]

/-- Claim C3: with the virtual depth z0 = -dz/sqrt(2 pi) for dz > 0, every
grid point at height z >= 0 has strictly positive distance R_mag to every
boundary point, and whenever R_mag + l_dot_R > 0 the denominator
R_mag * (R_mag + l_dot_R) of the kernel is strictly positive as well, so the
kernel divides by no zero and its value is a well-defined finite real. -/
theorem greens_function_no_div_by_zero (x y z x_grid y_grid dz : ℝ) (l : Fin 3 → ℝ)
    (hdz : 0 < dz) (hz : 0 ≤ z) :
    0 < R_mag x y z x_grid y_grid (z_depth dz) ∧
      (0 < R_mag x y z x_grid y_grid (z_depth dz) + l_dot_R x y z x_grid y_grid (z_depth dz) l →
        0 < R_mag x y z x_grid y_grid (z_depth dz) *
          (R_mag x y z x_grid y_grid (z_depth dz) + l_dot_R x y z x_grid y_grid (z_depth dz) l)) := by
  have hs : 0 < Real.sqrt (2 * Real.pi) := Real.sqrt_pos.mpr (by positivity)
  have hRz : 0 < z - z_depth dz := by
    have h1 : 0 < dz / Real.sqrt (2 * Real.pi) := div_pos hdz hs
    have h2 : z - z_depth dz = z + dz / Real.sqrt (2 * Real.pi) := by
      unfold z_depth; ring
    rw [h2]
    linarith
  have hR : 0 < R_mag x y z x_grid y_grid (z_depth dz) := by
    unfold R_mag
    apply Real.sqrt_pos.mpr
    nlinarith [sq_nonneg (x - x_grid), sq_nonneg (y - y_grid), mul_pos hRz hRz]
  exact ⟨hR, fun h => mul_pos hR h⟩

/-- Witness for claim C3 at a concrete admissible input. -/
theorem greens_function_no_div_by_zero_witness :
    0 < R_mag 0 0 0 0 0 (z_depth 1) ∧
      (0 < R_mag 0 0 0 0 0 (z_depth 1) + l_dot_R 0 0 0 0 0 (z_depth 1) (fun _ => 0) →
        0 < R_mag 0 0 0 0 0 (z_depth 1) *
          (R_mag 0 0 0 0 0 (z_depth 1) + l_dot_R 0 0 0 0 0 (z_depth 1) (fun _ => 0))) :=
  greens_function_no_div_by_zero 0 0 0 0 0 1 (fun _ => 0) one_pos le_rfl

/-!
Field Differentiator: PotentialField.calculate_field (lines 178-200).
Bfield is allocated as zeros of shape phi.shape + (3,); the three component
subarrays never interact, so each is embedded as its own Arr3.
-/

/-- Component 0 of the gradient assignment (lines 180-182): the slice
Bfield[2:-2, 2:-2, 2:-2, 0] receives
-(phi[:-4,..] - 8 phi[1:-3,..] + 8 phi[3:-1,..] - phi[4:,..])/12/delta.x;
at output index (p, q, r) with 2 <= p, p+2 < n0 (etc. for q, r) the phi
indices along axis 0 are p-2, p-1, p+1, p+2.  Cells outside the interior
keep the np.zeros initialisation (line 178). -/
noncomputable def Bcomp0 (phi : Arr3) (n0 n1 n2 : ℕ) (dx : ℝ) : Arr3 :=
  fun p q r =>
    if 2 ≤ p ∧ p + 2 < n0 ∧ 2 ≤ q ∧ q + 2 < n1 ∧ 2 ≤ r ∧ r + 2 < n2 then
      -(phi (p-2) q r - 8*phi (p-1) q r + 8*phi (p+1) q r - phi (p+2) q r)/12/dx
    else 0

/-- Component 1 of the gradient assignment (lines 183-185), along axis 1
with spacing delta.y. -/
noncomputable def Bcomp1 (phi : Arr3) (n0 n1 n2 : ℕ) (dy : ℝ) : Arr3 :=
  fun p q r =>
    if 2 ≤ p ∧ p + 2 < n0 ∧ 2 ≤ q ∧ q + 2 < n1 ∧ 2 ≤ r ∧ r + 2 < n2 then
      -(phi p (q-2) r - 8*phi p (q-1) r + 8*phi p (q+1) r - phi p (q+2) r)/12/dy
    else 0

/-- Component 2 of the gradient assignment (lines 186-188), along axis 2
with spacing delta.z. -/
noncomputable def Bcomp2 (phi : Arr3) (n0 n1 n2 : ℕ) (dz : ℝ) : Arr3 :=
  fun p q r =>
    if 2 ≤ p ∧ p + 2 < n0 ∧ 2 ≤ q ∧ q + 2 < n1 ∧ 2 ≤ r ∧ r + 2 < n2 then
      -(phi p q (r-2) - 8*phi p q (r-1) + 8*phi p q (r+1) - phi p q (r+2))/12/dz
    else 0

/-- Slice assignment B[t, :, :] = B[s, :, :] along axis 0. -/
noncomputable def setSlice0 (B : Arr3) (t s : ℕ) : Arr3 :=
  fun p q r => if p = t then B s q r else B p q r

/-- Slice assignment B[:, t, :] = B[:, s, :] along axis 1. -/
noncomputable def setSlice1 (B : Arr3) (t s : ℕ) : Arr3 :=
  fun p q r => if q = t then B p s r else B p q r

/-- Slice assignment B[:, :, t] = B[:, :, s] along axis 2. -/
noncomputable def setSlice2 (B : Arr3) (t s : ℕ) : Arr3 :=
  fun p q r => if r = t then B p q s else B p q r

/-- Boundary-condition loop of calculate_field (lines 189-198), applied to one
component.  Temporal order of the twelve slice assignments follows the source:
for j in [0, 1] the axis-0, axis-1, axis-2 slices j are set to slice 2, then
for j in [-2, -1] they are set to slice -3; a numpy index -m on an axis of
size n is n - m. -/
noncomputable def applyBoundary (n0 n1 n2 : ℕ) (B : Arr3) : Arr3 :=
  setSlice2 (setSlice1 (setSlice0
  (setSlice2 (setSlice1 (setSlice0
  (setSlice2 (setSlice1 (setSlice0
  (setSlice2 (setSlice1 (setSlice0 B
    0 2) 0 2) 0 2)
    1 2) 1 2) 1 2)
    (n0-2) (n0-3)) (n1-2) (n1-3)) (n2-2) (n2-3))
    (n0-1) (n0-3)) (n1-1) (n1-3)) (n2-1) (n2-3)

/-- PotentialField.calculate_field (lines 178-200): the three stencil
components, each with the boundary-condition loop applied, returned as
SpatialPair(x=Bfield[:,:,:,1], y=Bfield[:,:,:,0], z=Bfield[:,:,:,2])
(line 200). -/
noncomputable def PotentialField.calculate_field (phi : Arr3) (n0 n1 n2 : ℕ)
    (dx dy dz : ℝ) : Arr3 × Arr3 × Arr3 :=
  (applyBoundary n0 n1 n2 (Bcomp1 phi n0 n1 n2 dy),
   applyBoundary n0 n1 n2 (Bcomp0 phi n0 n1 n2 dx),
   applyBoundary n0 n1 n2 (Bcomp2 phi n0 n1 n2 dz))

/-- Index substitution: the index map realised by one slice copy. -/
def substIdx (t s p : ℕ) : ℕ := if p = t then s else p

/-- Per-axis index map realised by the four slice copies of the boundary
loop along one axis (the temporally last copy acts on the index first). -/
def extendIdx (n p : ℕ) : ℕ :=
  substIdx 0 2 (substIdx 1 2 (substIdx (n-2) (n-3) (substIdx (n-1) (n-3) p)))

theorem setSlice0_apply (B : Arr3) (t s p q r : ℕ) :
    setSlice0 B t s p q r = B (substIdx t s p) q r := by
  by_cases h : p = t <;> simp [setSlice0, substIdx, h]

theorem setSlice1_apply (B : Arr3) (t s p q r : ℕ) :
    setSlice1 B t s p q r = B p (substIdx t s q) r := by
  by_cases h : q = t <;> simp [setSlice1, substIdx, h]

theorem setSlice2_apply (B : Arr3) (t s p q r : ℕ) :
    setSlice2 B t s p q r = B p q (substIdx t s r) := by
  by_cases h : r = t <;> simp [setSlice2, substIdx, h]

/-- The boundary loop is precomposition with the per-axis index maps. -/
theorem applyBoundary_apply (n0 n1 n2 : ℕ) (B : Arr3) (p q r : ℕ) :
    applyBoundary n0 n1 n2 B p q r = B (extendIdx n0 p) (extendIdx n1 q) (extendIdx n2 r) := by
  unfold applyBoundary extendIdx
  rw [setSlice2_apply, setSlice1_apply, setSlice0_apply,
      setSlice2_apply, setSlice1_apply, setSlice0_apply,
      setSlice2_apply, setSlice1_apply, setSlice0_apply,
      setSlice2_apply, setSlice1_apply, setSlice0_apply]

theorem extendIdx_interior {n p : ℕ} (h2 : 2 ≤ p) (hn : p + 2 < n) :
    extendIdx n p = p := by
  unfold extendIdx substIdx
  split_ifs <;> omega

theorem extendIdx_zero {n : ℕ} (h : 3 ≤ n) : extendIdx n 0 = extendIdx n 2 := by
  unfold extendIdx substIdx
  split_ifs <;> omega

theorem extendIdx_one {n : ℕ} (h : 3 ≤ n) : extendIdx n 1 = extendIdx n 2 := by
  unfold extendIdx substIdx
  split_ifs <;> omega

theorem extendIdx_last {n : ℕ} (h : 3 ≤ n) : extendIdx n (n-1) = extendIdx n (n-3) := by
  unfold extendIdx substIdx
  split_ifs <;> omega

theorem extendIdx_sublast {n : ℕ} (h : 3 ≤ n) : extendIdx n (n-2) = extendIdx n (n-3) := by
  unfold extendIdx substIdx
  split_ifs <;> omega

theorem extendIdx_two (n : ℕ) : extendIdx n 2 = 2 := by
  unfold extendIdx substIdx
  split_ifs <;> omega

theorem extendIdx_fix {n p : ℕ} (h0 : p ≠ 0) (h1 : p ≠ 1) (h2 : p ≠ n-2) (h3 : p ≠ n-1) :
    extendIdx n p = p := by
  unfold extendIdx substIdx
  split_ifs <;> omega

theorem extendIdx_zero' (n : ℕ) : extendIdx n 0 = 2 := by
  unfold extendIdx substIdx
  split_ifs <;> omega

theorem extendIdx_one' (n : ℕ) : extendIdx n 1 = 2 := by
  unfold extendIdx substIdx
  split_ifs <;> omega

theorem extendIdx_last' {n : ℕ} (h : 5 ≤ n) : extendIdx n (n-1) = n-3 := by
  unfold extendIdx substIdx
  split_ifs <;> omega

theorem extendIdx_sublast' {n : ℕ} (h : 5 ≤ n) : extendIdx n (n-2) = n-3 := by
  unfold extendIdx substIdx
  split_ifs <;> omega

theorem extendIdx_idem (n p : ℕ) : extendIdx n (extendIdx n p) = extendIdx n p := by
  by_cases hn : 5 ≤ n
  · by_cases h0 : p = 0
    · subst h0; rw [extendIdx_zero', extendIdx_two]
    · by_cases h1 : p = 1
      · subst h1; rw [extendIdx_one', extendIdx_two]
      · by_cases h2 : p = n - 2
        · subst h2
          rw [extendIdx_sublast' hn,
            extendIdx_fix (by omega) (by omega) (by omega) (by omega)]
        · by_cases h3 : p = n - 1
          · subst h3
            rw [extendIdx_last' hn,
              extendIdx_fix (by omega) (by omega) (by omega) (by omega)]
          · rw [extendIdx_fix h0 h1 h2 h3, extendIdx_fix h0 h1 h2 h3]
  · have hn4 : n ≤ 4 := by omega
    interval_cases n <;>
    · by_cases h0 : p = 0
      · subst h0; simp [extendIdx, substIdx]
      · by_cases h1 : p = 1
        · subst h1; simp [extendIdx, substIdx]
        · by_cases h2 : p = 2
          · subst h2; simp [extendIdx, substIdx]
          · by_cases h3 : p = 3
            · subst h3; simp [extendIdx, substIdx]
            · rw [extendIdx_fix h0 h1 (by omega) (by omega),
                extendIdx_fix h0 h1 (by omega) (by omega)]

theorem add_two_sub_one (i : ℕ) : i + 2 - 1 = i + 1 := by omega

/-- Claim C4: on the interior (every index at least 2 and at most N-3 along
all three axes), each computed component of the field is minus the five-point
fourth-order central difference of phi along that component's axis, divided by
that axis's spacing: B_i = -(-phi(x_i+2) + 8 phi(x_i+1) - 8 phi(x_i-1)
+ phi(x_i-2)) / (12 delta_i).  The returned triple is
(component 1, component 0, component 2) as in line 200 of the source. -/
theorem calculate_field_interior_stencil (phi : Arr3) (n0 n1 n2 : ℕ) (dx dy dz : ℝ)
    (p q r : ℕ) (hp : 2 ≤ p) (hp2 : p + 2 < n0) (hq : 2 ≤ q) (hq2 : q + 2 < n1)
    (hr : 2 ≤ r) (hr2 : r + 2 < n2) :
    (PotentialField.calculate_field phi n0 n1 n2 dx dy dz).2.1 p q r
        = -(-phi (p+2) q r + 8*phi (p+1) q r - 8*phi (p-1) q r + phi (p-2) q r)/(12*dx)
    ∧ (PotentialField.calculate_field phi n0 n1 n2 dx dy dz).1 p q r
        = -(-phi p (q+2) r + 8*phi p (q+1) r - 8*phi p (q-1) r + phi p (q-2) r)/(12*dy)
    ∧ (PotentialField.calculate_field phi n0 n1 n2 dx dy dz).2.2 p q r
        = -(-phi p q (r+2) + 8*phi p q (r+1) - 8*phi p q (r-1) + phi p q (r-2))/(12*dz) := by
  dsimp only [PotentialField.calculate_field]
  simp only [applyBoundary_apply, extendIdx_interior hp hp2, extendIdx_interior hq hq2,
    extendIdx_interior hr hr2]
  refine ⟨?_, ?_, ?_⟩ <;>
  · simp only [Bcomp0, Bcomp1, Bcomp2, hp, hp2, hq, hq2, hr, hr2, and_self, if_true, and_true,
      true_and]
    ring

/-- Witness for claim C4 at a concrete interior point of a 5x5x5 grid. -/
theorem calculate_field_interior_stencil_witness :
    (PotentialField.calculate_field (fun _ _ _ => (0:ℝ)) 5 5 5 1 1 1).2.1 2 2 2
        = -(-(0:ℝ) + 8*0 - 8*0 + 0)/(12*1)
    ∧ (PotentialField.calculate_field (fun _ _ _ => (0:ℝ)) 5 5 5 1 1 1).1 2 2 2
        = -(-(0:ℝ) + 8*0 - 8*0 + 0)/(12*1)
    ∧ (PotentialField.calculate_field (fun _ _ _ => (0:ℝ)) 5 5 5 1 1 1).2.2 2 2 2
        = -(-(0:ℝ) + 8*0 - 8*0 + 0)/(12*1) :=
  calculate_field_interior_stencil (fun _ _ _ => (0:ℝ)) 5 5 5 1 1 1 2 2 2
    (le_refl 2) (by decide) (le_refl 2) (by decide) (le_refl 2) (by decide)

/-- The twelve slice equalities claimed for the returned field array: along
every axis the slices at 0 and 1 equal the slice at 2, and the slices at N-1
and N-2 equal the slice at N-3. -/
def slicesEq (n0 n1 n2 : ℕ) (C : Arr3) : Prop :=
  (∀ q r, C 0 q r = C 2 q r ∧ C 1 q r = C 2 q r ∧
    C (n0-1) q r = C (n0-3) q r ∧ C (n0-2) q r = C (n0-3) q r) ∧
  (∀ p r, C p 0 r = C p 2 r ∧ C p 1 r = C p 2 r ∧
    C p (n1-1) r = C p (n1-3) r ∧ C p (n1-2) r = C p (n1-3) r) ∧
  (∀ p q, C p q 0 = C p q 2 ∧ C p q 1 = C p q 2 ∧
    C p q (n2-1) = C p q (n2-3) ∧ C p q (n2-2) = C p q (n2-3))

theorem applyBoundary_slicesEq {n0 n1 n2 : ℕ} (h0 : 3 ≤ n0) (h1 : 3 ≤ n1) (h2 : 3 ≤ n2)
    (B : Arr3) : slicesEq n0 n1 n2 (applyBoundary n0 n1 n2 B) := by
  refine ⟨fun q r => ⟨?_, ?_, ?_, ?_⟩, fun p r => ⟨?_, ?_, ?_, ?_⟩, fun p q => ⟨?_, ?_, ?_, ?_⟩⟩ <;>
    simp only [applyBoundary_apply]
  · rw [extendIdx_zero h0]
  · rw [extendIdx_one h0]
  · rw [extendIdx_last h0]
  · rw [extendIdx_sublast h0]
  · rw [extendIdx_zero h1]
  · rw [extendIdx_one h1]
  · rw [extendIdx_last h1]
  · rw [extendIdx_sublast h1]
  · rw [extendIdx_zero h2]
  · rw [extendIdx_one h2]
  · rw [extendIdx_last h2]
  · rw [extendIdx_sublast h2]

/-- Claim C5: in the array returned by calculate_field, for every component
and along every axis, the slices at indices 0 and 1 equal the slice at index
2, and the slices at indices N-1 and N-2 equal the slice at index N-3. -/
theorem calculate_field_boundary_slices (phi : Arr3) (n0 n1 n2 : ℕ) (dx dy dz : ℝ)
    (h0 : 3 ≤ n0) (h1 : 3 ≤ n1) (h2 : 3 ≤ n2) :
    slicesEq n0 n1 n2 (PotentialField.calculate_field phi n0 n1 n2 dx dy dz).1 ∧
    slicesEq n0 n1 n2 (PotentialField.calculate_field phi n0 n1 n2 dx dy dz).2.1 ∧
    slicesEq n0 n1 n2 (PotentialField.calculate_field phi n0 n1 n2 dx dy dz).2.2 :=
  ⟨applyBoundary_slicesEq h0 h1 h2 _, applyBoundary_slicesEq h0 h1 h2 _,
    applyBoundary_slicesEq h0 h1 h2 _⟩

/-- Witness for claim C5 on a concrete 5x5x5 field. -/
theorem calculate_field_boundary_slices_witness :
    slicesEq 5 5 5 (PotentialField.calculate_field (fun _ _ _ => (0:ℝ)) 5 5 5 1 1 1).1 ∧
    slicesEq 5 5 5 (PotentialField.calculate_field (fun _ _ _ => (0:ℝ)) 5 5 5 1 1 1).2.1 ∧
    slicesEq 5 5 5 (PotentialField.calculate_field (fun _ _ _ => (0:ℝ)) 5 5 5 1 1 1).2.2 :=
  calculate_field_boundary_slices (fun _ _ _ => (0:ℝ)) 5 5 5 1 1 1
    (by decide) (by decide) (by decide)

/-- Claim C8: the boundary-copy policy of calculate_field is idempotent:
applying the twelve slice assignments a second time to an array already
extended by them changes nothing. -/
theorem applyBoundary_idempotent (n0 n1 n2 : ℕ) (B : Arr3) :
    applyBoundary n0 n1 n2 (applyBoundary n0 n1 n2 B) = applyBoundary n0 n1 n2 B := by
  funext p q r
  simp only [applyBoundary_apply, extendIdx_idem]

/-- Modelled from the claim C7 input: the affine potential
phi(i,j,k) = a (i dx) + b (j dy) + c (k dz) sampled on the grid, with (i,j,k)
the array indices and (dx, dy, dz) the per-axis spacings. -/
noncomputable def affinePhi (a b c dx dy dz : ℝ) : Arr3 :=
  fun p q r => a * (p * dx) + b * (q * dy) + c * (r * dz)

/-- Counterexample to claim C7 as stated: for the affine potential with
a = 1, b = 2, c = 0 and unit spacings on a 5x5x5 grid, the x component
returned by calculate_field at the interior point (2,2,2) is -2 = -b, not
-1 = -a as the claim requires. -/
theorem calculate_field_affine_counterexample :
    (PotentialField.calculate_field (affinePhi 1 2 0 1 1 1) 5 5 5 1 1 1).1 2 2 2 ≠ -1 := by
  have h : (PotentialField.calculate_field (affinePhi 1 2 0 1 1 1) 5 5 5 1 1 1).1 2 2 2 = -2 := by
    dsimp only [PotentialField.calculate_field]
    rw [applyBoundary_apply, extendIdx_two]
    norm_num [Bcomp1, affinePhi]
  rw [h]
  norm_num

/-- Claim C7 amended: for the affine potential phi(i,j,k) = a (i dx)
+ b (j dy) + c (k dz) sampled on the grid, calculate_field returns exactly
(B_x, B_y, B_z) = (-b, -a, -c) at every interior point: the first two
returned components are swapped relative to the axis order of the array, as
the returned SpatialPair takes x from component 1 and y from component 0. -/
theorem calculate_field_affine_amended (a b c dx dy dz : ℝ) (n0 n1 n2 p q r : ℕ)
    (hdx : dx ≠ 0) (hdy : dy ≠ 0) (hdz : dz ≠ 0)
    (hp : 2 ≤ p) (hp2 : p + 2 < n0) (hq : 2 ≤ q) (hq2 : q + 2 < n1)
    (hr : 2 ≤ r) (hr2 : r + 2 < n2) :
    (PotentialField.calculate_field (affinePhi a b c dx dy dz) n0 n1 n2 dx dy dz).1 p q r = -b
    ∧ (PotentialField.calculate_field (affinePhi a b c dx dy dz) n0 n1 n2 dx dy dz).2.1 p q r = -a
    ∧ (PotentialField.calculate_field (affinePhi a b c dx dy dz) n0 n1 n2 dx dy dz).2.2 p q r = -c := by
  obtain ⟨i, rfl⟩ : ∃ i, p = i + 2 := ⟨p - 2, by omega⟩
  obtain ⟨j, rfl⟩ : ∃ j, q = j + 2 := ⟨q - 2, by omega⟩
  obtain ⟨k, rfl⟩ : ∃ k, r = k + 2 := ⟨r - 2, by omega⟩
  dsimp only [PotentialField.calculate_field]
  simp only [applyBoundary_apply, extendIdx_interior hp hp2, extendIdx_interior hq hq2,
    extendIdx_interior hr hr2]
  refine ⟨?_, ?_, ?_⟩ <;>
  · simp only [Bcomp0, Bcomp1, Bcomp2, hp, hp2, hq, hq2, hr, hr2, and_self, if_true, and_true,
      true_and, affinePhi, Nat.add_sub_cancel, add_two_sub_one]
    push_cast
    field_simp
    ring

/-- Witness for the amended claim C7 at a concrete interior point. -/
theorem calculate_field_affine_amended_witness :
    (PotentialField.calculate_field (affinePhi 1 2 3 1 1 1) 5 5 5 1 1 1).1 2 2 2 = -2
    ∧ (PotentialField.calculate_field (affinePhi 1 2 3 1 1 1) 5 5 5 1 1 1).2.1 2 2 2 = -1
    ∧ (PotentialField.calculate_field (affinePhi 1 2 3 1 1 1) 5 5 5 1 1 1).2.2 2 2 2 = -3 :=
  calculate_field_affine_amended 1 2 3 1 1 1 5 5 5 2 2 2
    one_ne_zero one_ne_zero one_ne_zero
    (le_refl 2) (by decide) (le_refl 2) (by decide) (le_refl 2) (by decide)

/-!
Potential Solver: the numba kernel calculate_phi (lines 211-223) and its
caller PotentialField.calculate_phi (lines 132-152).
-/

/-- One accumulated contribution of the innermost loop body (lines 219-221):
boundary[j_prime, i_prime] * greens_function(x, y, z, x_prime, y_prime,
z_depth, l_hat) * delta.x * delta.y with x_prime = i_prime * delta.x and
y_prime = j_prime * delta.y. -/
noncomputable def greenTerm (boundary : ℕ → ℕ → ℝ) (dx dy zd : ℝ) (l : Fin 3 → ℝ)
    (x y z : ℝ) (ip jp : ℕ) : ℝ :=
  boundary jp ip * greens_function x y z (ip*dx) (jp*dy) zd l * dx * dy

/-- The two innermost loops of calculate_phi (lines 217-221): for i_prime in
range(shape.x), for j_prime in range(shape.y), the contribution is added in
place to the single cell phi[j, i, k]. -/
noncomputable def innerLoops (φ : Arr3) (boundary : ℕ → ℕ → ℝ) (dx dy zd : ℝ)
    (l : Fin 3 → ℝ) (Nx Ny : ℕ) (x y z : ℝ) (i j k : ℕ) : Arr3 :=
  (List.range Nx).foldl (fun φ1 ip =>
    (List.range Ny).foldl (fun φ2 jp =>
      fun p q r => if p = j ∧ q = i ∧ r = k
        then φ2 p q r + greenTerm boundary dx dy zd l x y z ip jp
        else φ2 p q r) φ1) φ

/-- The double boundary sum accumulated into one cell: sum over i_prime in
range(shape.x) and j_prime in range(shape.y) of the loop-body contribution. -/
noncomputable def cellSum (boundary : ℕ → ℕ → ℝ) (dx dy zd : ℝ) (l : Fin 3 → ℝ)
    (Nx Ny : ℕ) (x y z : ℝ) : ℝ :=
  ∑ ip ∈ Finset.range Nx, ∑ jp ∈ Finset.range Ny, greenTerm boundary dx dy zd l x y z ip jp

/-- The numba kernel calculate_phi (lines 211-223): the triple loop over
i in range(shape.x), j in range(shape.y), k in range(shape.z) sets
x, y, z = i*delta.x, j*delta.y, k*delta.z and accumulates the inner double
loop into phi[j, i, k]. -/
noncomputable def calculate_phi (phi : Arr3) (boundary : ℕ → ℕ → ℝ)
    (dx dy dz : ℝ) (Nx Ny Nz : ℕ) (zd : ℝ) (l : Fin 3 → ℝ) : Arr3 :=
  (List.range Nx).foldl (fun φ1 (i : ℕ) =>
    (List.range Ny).foldl (fun φ2 (j : ℕ) =>
      (List.range Nz).foldl (fun φ3 (k : ℕ) =>
        innerLoops φ3 boundary dx dy zd l Nx Ny ((i:ℝ)*dx) ((j:ℝ)*dy) ((k:ℝ)*dz) i j k) φ2) φ1) phi

/-- Alias for the kernel above; the method embedded next shares its short
name with the kernel, exactly as in the source, so it refers to the kernel
through this alias. -/
noncomputable def calculate_phi_kernel := @calculate_phi

/-- PotentialField.calculate_phi (lines 132-152): allocates
phi = np.zeros((shape.x, shape.y, shape.z)), computes
z_depth = -delta.z/np.sqrt(2 pi) and calls the numba kernel with the
projected boundary and the normalised line-of-sight vector. -/
noncomputable def PotentialField.calculate_phi (boundary : ℕ → ℕ → ℝ)
    (dx dy dz : ℝ) (Nx Ny Nz : ℕ) (l : Fin 3 → ℝ) : Arr3 :=
  calculate_phi_kernel (fun _ _ _ => 0) boundary dx dy dz Nx Ny Nz (z_depth dz) l

theorem sum_map_range (n : ℕ) (f : ℕ → ℝ) :
    ((List.range n).map f).sum = ∑ x ∈ Finset.range n, f x := by
  induction n with
  | zero => simp
  | succ m ih =>
    rw [List.range_succ, List.map_append, List.sum_append, Finset.sum_range_succ, ih]
    simp

theorem foldl_add_cell (L : List ℕ) (g : ℕ → ℝ) (φ : Arr3) (j i k : ℕ) :
    (L.foldl (fun φ1 a =>
      fun p q r => if p = j ∧ q = i ∧ r = k then φ1 p q r + g a else φ1 p q r) φ)
    = fun p q r => if p = j ∧ q = i ∧ r = k then φ p q r + (L.map g).sum else φ p q r := by
  induction L generalizing φ with
  | nil => funext p q r; simp
  | cons a L ih =>
    rw [List.foldl_cons, ih]
    funext p q r
    by_cases h : p = j ∧ q = i ∧ r = k
    · simp only [h, if_true, and_self, List.map_cons, List.sum_cons]
      ring
    · simp only [h, if_false]

theorem innerLoops_eval (φ : Arr3) (boundary : ℕ → ℕ → ℝ) (dx dy zd : ℝ)
    (l : Fin 3 → ℝ) (Nx Ny : ℕ) (x y z : ℝ) (i j k : ℕ) :
    innerLoops φ boundary dx dy zd l Nx Ny x y z i j k
      = fun p q r => if p = j ∧ q = i ∧ r = k
          then φ p q r + cellSum boundary dx dy zd l Nx Ny x y z
          else φ p q r := by
  unfold innerLoops cellSum
  simp only [foldl_add_cell, sum_map_range]

theorem loopK_eval (boundary : ℕ → ℕ → ℝ) (dx dy dz zd : ℝ) (l : Fin 3 → ℝ)
    (Nx Ny : ℕ) (i j : ℕ) (M : ℕ) (φ : Arr3) (p q r : ℕ) :
    ((List.range M).foldl (fun φ3 (k : ℕ) =>
        innerLoops φ3 boundary dx dy zd l Nx Ny ((i:ℝ)*dx) ((j:ℝ)*dy) ((k:ℝ)*dz) i j k) φ) p q r
    = if p = j ∧ q = i ∧ r < M
        then φ p q r + cellSum boundary dx dy zd l Nx Ny ((i:ℝ)*dx) ((j:ℝ)*dy) ((r:ℝ)*dz)
        else φ p q r := by
  induction M generalizing φ p q r with
  | zero => simp
  | succ M ih =>
    rw [List.range_succ, List.foldl_append, List.foldl_cons, List.foldl_nil, innerLoops_eval]
    simp only [ih]
    split_ifs <;> first | rfl | omega | simp_all

theorem loopJ_eval (boundary : ℕ → ℕ → ℝ) (dx dy dz zd : ℝ) (l : Fin 3 → ℝ)
    (Nx Ny Nz : ℕ) (i : ℕ) (M : ℕ) (φ : Arr3) (p q r : ℕ) :
    ((List.range M).foldl (fun φ2 (j : ℕ) =>
        (List.range Nz).foldl (fun φ3 (k : ℕ) =>
          innerLoops φ3 boundary dx dy zd l Nx Ny ((i:ℝ)*dx) ((j:ℝ)*dy) ((k:ℝ)*dz) i j k) φ2) φ) p q r
    = if q = i ∧ p < M ∧ r < Nz
        then φ p q r + cellSum boundary dx dy zd l Nx Ny ((i:ℝ)*dx) ((p:ℝ)*dy) ((r:ℝ)*dz)
        else φ p q r := by
  induction M generalizing φ p q r with
  | zero => simp
  | succ M ih =>
    rw [List.range_succ, List.foldl_append, List.foldl_cons, List.foldl_nil, loopK_eval]
    simp only [ih]
    split_ifs <;> first | rfl | omega | simp_all

theorem calculate_phi_eval (phi : Arr3) (boundary : ℕ → ℕ → ℝ) (dx dy dz : ℝ)
    (Nx Ny Nz : ℕ) (zd : ℝ) (l : Fin 3 → ℝ) (p q r : ℕ) :
    calculate_phi phi boundary dx dy dz Nx Ny Nz zd l p q r
    = if p < Ny ∧ q < Nx ∧ r < Nz
        then phi p q r + cellSum boundary dx dy zd l Nx Ny ((q:ℝ)*dx) ((p:ℝ)*dy) ((r:ℝ)*dz)
        else phi p q r := by
  have main : ∀ (M : ℕ) (φ : Arr3) (p q r : ℕ),
      ((List.range M).foldl (fun φ1 (i : ℕ) =>
        (List.range Ny).foldl (fun φ2 (j : ℕ) =>
          (List.range Nz).foldl (fun φ3 (k : ℕ) =>
            innerLoops φ3 boundary dx dy zd l Nx Ny ((i:ℝ)*dx) ((j:ℝ)*dy) ((k:ℝ)*dz) i j k) φ2) φ1) φ) p q r
      = if p < Ny ∧ q < M ∧ r < Nz
          then φ p q r + cellSum boundary dx dy zd l Nx Ny ((q:ℝ)*dx) ((p:ℝ)*dy) ((r:ℝ)*dz)
          else φ p q r := by
    intro M
    induction M with
    | zero => intro φ p q r; simp
    | succ M ih =>
      intro φ p q r
      rw [List.range_succ, List.foldl_append, List.foldl_cons, List.foldl_nil, loopJ_eval]
      simp only [ih]
      split_ifs <;> first | rfl | omega | simp_all
  exact main Nx phi p q r

/-- Claim C1: with phi initialised to zeros, the solver output for the grid
point with indices (i, j, k) — the array cell phi[j, i, k], as written by
line 221 of the source — equals the double sum over all boundary indices
(i_prime, j_prime) of boundary[j_prime, i_prime] * greens_function(i dx,
j dy, k dz, i_prime dx, j_prime dy, z0, l) * dx * dy with z0 = -dz/sqrt(2 pi),
and every cell the loop nest never writes stays exactly zero, so no other
term contributes to any cell. -/
theorem calculate_phi_is_greens_double_sum (boundary : ℕ → ℕ → ℝ) (dx dy dz : ℝ)
    (l : Fin 3 → ℝ) (Nx Ny Nz i j k : ℕ) (hi : i < Nx) (hj : j < Ny) (hk : k < Nz) :
    PotentialField.calculate_phi boundary dx dy dz Nx Ny Nz l j i k
      = ∑ ip ∈ Finset.range Nx, ∑ jp ∈ Finset.range Ny,
          boundary jp ip *
            greens_function ((i:ℝ)*dx) ((j:ℝ)*dy) ((k:ℝ)*dz) ((ip:ℝ)*dx) ((jp:ℝ)*dy)
              (z_depth dz) l * dx * dy
    ∧ ∀ p q r, ¬(p < Ny ∧ q < Nx ∧ r < Nz) →
        PotentialField.calculate_phi boundary dx dy dz Nx Ny Nz l p q r = 0 := by
  constructor
  · show calculate_phi (fun _ _ _ => 0) boundary dx dy dz Nx Ny Nz (z_depth dz) l j i k = _
    rw [calculate_phi_eval, if_pos (show j < Ny ∧ i < Nx ∧ k < Nz from ⟨hj, hi, hk⟩)]
    simp only [cellSum, greenTerm, zero_add]
  · intro p q r h
    show calculate_phi (fun _ _ _ => 0) boundary dx dy dz Nx Ny Nz (z_depth dz) l p q r = 0
    rw [calculate_phi_eval, if_neg h]

/-- Witness for claim C1 on a 1x1x1 grid with unit boundary field. -/
theorem calculate_phi_is_greens_double_sum_witness :
    PotentialField.calculate_phi (fun _ _ => 1) 1 1 1 1 1 1 (fun _ => 0) 0 0 0
      = ∑ ip ∈ Finset.range 1, ∑ jp ∈ Finset.range 1,
          (1:ℝ) *
            greens_function (((0:ℕ):ℝ)*1) (((0:ℕ):ℝ)*1) (((0:ℕ):ℝ)*1) ((ip:ℝ)*1) ((jp:ℝ)*1)
              (z_depth 1) (fun _ => 0) * 1 * 1
    ∧ ∀ p q r, ¬(p < 1 ∧ q < 1 ∧ r < 1) →
        PotentialField.calculate_phi (fun _ _ => 1) 1 1 1 1 1 1 (fun _ => 0) p q r = 0 :=
  calculate_phi_is_greens_double_sum (fun _ _ => 1) 1 1 1 (fun _ => 0) 1 1 1 0 0 0
    Nat.one_pos Nat.one_pos Nat.one_pos

/-- The list of array cells phi[j, i, k] assigned by the loop nest of
calculate_phi (lines 213-221), in loop order: i over range(shape.x), j over
range(shape.y), k over range(shape.z), writing cell (j, i, k). -/
def writeIndices (Nx Ny Nz : ℕ) : List (ℕ × ℕ × ℕ) :=
  (List.range Nx).flatMap fun i =>
    (List.range Ny).flatMap fun j =>
      (List.range Nz).map fun k => (j, i, k)

theorem writeIndices_mem (Nx Ny Nz : ℕ) (c : ℕ × ℕ × ℕ) :
    c ∈ writeIndices Nx Ny Nz ↔ c.1 < Ny ∧ c.2.1 < Nx ∧ c.2.2 < Nz := by
  simp only [writeIndices, List.mem_flatMap, List.mem_map, List.mem_range]
  constructor
  · rintro ⟨i, hi, j, hj, k, hk, rfl⟩
    exact ⟨hj, hi, hk⟩
  · intro h
    obtain ⟨p, q, r⟩ := c
    exact ⟨q, h.2.1, p, h.1, r, h.2.2, rfl⟩

/-- Cells outside the write set of the loop nest keep their initial value. -/
theorem calculate_phi_unwritten (phi : Arr3) (boundary : ℕ → ℕ → ℝ) (dx dy dz : ℝ)
    (Nx Ny Nz : ℕ) (zd : ℝ) (l : Fin 3 → ℝ) (c : ℕ × ℕ × ℕ)
    (h : c ∉ writeIndices Nx Ny Nz) :
    calculate_phi phi boundary dx dy dz Nx Ny Nz zd l c.1 c.2.1 c.2.2 = phi c.1 c.2.1 c.2.2 := by
  rw [writeIndices_mem] at h
  rw [calculate_phi_eval, if_neg h]

/-- Claim C10: the loop nest writes phi[j, i, k] while phi is allocated with
shape (Nx, Ny, Nz).  When Nx = Ny every written cell is inside those bounds;
when Ny > Nx (and the loops execute at all) a written cell has first index
Ny - 1, which is at least Nx and therefore out of the allocated first-axis
bound; and when Nx > Ny some first-axis rows below Nx are never written. -/
theorem calculate_phi_write_bounds (Nx Ny Nz : ℕ) :
    ((Nx = Ny) → ∀ c ∈ writeIndices Nx Ny Nz, c.1 < Nx ∧ c.2.1 < Ny ∧ c.2.2 < Nz)
    ∧ (Ny > Nx → 0 < Nx → 0 < Nz → ∃ c ∈ writeIndices Nx Ny Nz, c.1 = Ny - 1 ∧ Nx ≤ c.1)
    ∧ (Nx > Ny → ∃ row, row < Nx ∧ ∀ c ∈ writeIndices Nx Ny Nz, c.1 ≠ row) := by
  refine ⟨?_, ?_, ?_⟩
  · intro hEq c hc
    rw [writeIndices_mem] at hc
    omega
  · intro h1 h2 h3
    refine ⟨(Ny - 1, 0, 0), ?_, rfl, by omega⟩
    rw [writeIndices_mem]
    exact ⟨by omega, h2, h3⟩
  · intro h1
    refine ⟨Ny, by omega, ?_⟩
    intro c hc
    rw [writeIndices_mem] at hc
    omega

/-- Witness for claim C10 at the concrete shapes (2,2,2), (1,2,1), (2,1,1). -/
theorem calculate_phi_write_bounds_witness :
    (∀ c ∈ writeIndices 2 2 2, c.1 < 2 ∧ c.2.1 < 2 ∧ c.2.2 < 2)
    ∧ (∃ c ∈ writeIndices 1 2 1, c.1 = 2 - 1 ∧ 1 ≤ c.1)
    ∧ (∃ row, row < 2 ∧ ∀ c ∈ writeIndices 2 1 1, c.1 ≠ row) :=
  ⟨(calculate_phi_write_bounds 2 2 2).1 rfl,
   (calculate_phi_write_bounds 1 2 1).2.1 (by decide) (by decide) (by decide),
   (calculate_phi_write_bounds 2 1 1).2.2 (by decide)⟩

/-!
Boundary Projector: PotentialField.project_boundary (lines 103-122).
The scattered-data interpolation itself is scipy's griddata, an external
collaborator; only its documented contract is modelled.  The array shapes
are derived from the numpy calls of the source.
-/

/-- Number of samples of np.linspace(start, stop, num), as used for x_new
and y_new (lines 117-118). -/
def linspace_len (num : ℕ) : ℕ := num

/-- Shape of each output of np.meshgrid(x, y) with the default cartesian
indexing, as used at line 119: (len(y), len(x)). -/
def meshgrid_shape (len_x len_y : ℕ) : ℕ × ℕ := (len_y, len_x)

/-- Shape of the array PotentialField.project_boundary returns (lines
117-122): griddata evaluated on the meshgrid of x_new (shape.x samples) and
y_new (shape.y samples) has the shape of the query grids. -/
def PotentialField.project_boundary_shape (Nx Ny : ℕ) : ℕ × ℕ :=
  meshgrid_shape (linspace_len Nx) (linspace_len Ny)

/-- Shape of phi = np.zeros((shape.x, shape.y, shape.z)) (line 149). -/
def PotentialField.phi_shape (Nx Ny Nz : ℕ) : ℕ × ℕ × ℕ := (Nx, Ny, Nz)

/-- Shape of each component slice Bfield[:, :, :, i] of the array allocated
as np.zeros(phi.shape + (3,)) in calculate_field (line 178). -/
def PotentialField.field_component_shape (Nx Ny Nz : ℕ) : ℕ × ℕ × ℕ :=
  PotentialField.phi_shape Nx Ny Nz

/-- Counterexample to claim C6 as stated: for a magnetogram with pixel
dimensions Nx = 1, Ny = 2, the boundary field returned by project_boundary
has shape (2, 1), not (Nx, Ny) = (1, 2). -/
theorem project_boundary_shape_counterexample :
    PotentialField.project_boundary_shape 1 2 ≠ (1, 2) := by decide

/-- Claim C6 amended: the boundary field returned by project_boundary has
shape (Ny, Nx) — transposed relative to the claim — while the potential and
every field component have shape (Nx, Ny, Nz); the three shapes agree in the
claimed form exactly when Nx = Ny. -/
theorem array_shapes_amended (Nx Ny Nz : ℕ) :
    PotentialField.project_boundary_shape Nx Ny = (Ny, Nx)
    ∧ PotentialField.phi_shape Nx Ny Nz = (Nx, Ny, Nz)
    ∧ PotentialField.field_component_shape Nx Ny Nz = PotentialField.phi_shape Nx Ny Nz
    ∧ (Nx = Ny → PotentialField.project_boundary_shape Nx Ny = (Nx, Ny)) := by
  refine ⟨rfl, rfl, rfl, ?_⟩
  rintro rfl
  rfl

/-- Witness for the amended claim C6 at the square shape Nx = Ny = 3. -/
theorem array_shapes_amended_witness :
    PotentialField.project_boundary_shape 3 3 = (3, 3) :=
  (array_shapes_amended 3 3 3).2.2.2 rfl

/-- Modelled from the scipy.interpolate.griddata contract (external library,
consumed at line 120): query points inside the convex hull of the scattered
sample points are interpolated, query points outside it receive fill_value;
the hull membership test and the interior interpolant are abstract here. -/
noncomputable def griddata_model (interp : ℝ × ℝ → ℝ) (inHull : ℝ × ℝ → Bool)
    (fill : ℝ) (query : ℝ × ℝ) : ℝ :=
  if inHull query then interp query else fill

/-- The value PotentialField.project_boundary computes for one target grid
location (line 120): griddata(points, values, (x_grid, y_grid),
fill_value=0.), so the fill value passed is 0. -/
noncomputable def PotentialField.project_boundary_value (interp : ℝ × ℝ → ℝ)
    (inHull : ℝ × ℝ → Bool) (query : ℝ × ℝ) : ℝ :=
  griddata_model interp inHull 0 query

/-- Claim C9: every target grid location outside the convex hull of the
mapped magnetogram pixel centres is assigned the value 0: coverage gaps are
a defined fill policy, total on every input, never a failure. -/
theorem project_boundary_outside_hull_zero (interp : ℝ × ℝ → ℝ)
    (inHull : ℝ × ℝ → Bool) (query : ℝ × ℝ) (h : inHull query = false) :
    PotentialField.project_boundary_value interp inHull query = 0 := by
  unfold PotentialField.project_boundary_value griddata_model
  rw [h]
  simp

/-- Witness for claim C9 at a concrete out-of-hull query point. -/
theorem project_boundary_outside_hull_zero_witness :
    PotentialField.project_boundary_value (fun _ => 1) (fun _ => false) (0, 0) = 0 :=
  project_boundary_outside_hull_zero (fun _ => 1) (fun _ => false) (0, 0) rfl
